import Mathlib

/-!
Verification of the highlight engine of the German POS Highlighter extension.

The definitions below are a shallow embedding of the `Highlighter` module
(`applyHighlights`, `findTokensToHighlight`, `highlightRange`,
`highlightTextNode`, `clearHighlights`, `clearAllHighlights`, `showTooltip`,
`hideTooltip`, `hideTooltipImmediately`) together with the DOM operations it
uses (`textContent`, `TreeWalker` over text nodes, `Range.surroundContents`,
`Range.extractContents`/`insertNode`, `Node.normalize`,
`querySelectorAll('.german-pos-highlight')`, `getElementById`).

JS strings are modelled as lists of characters; all offsets count characters.
-/

/-- Characters of a JS string; offsets index into this list. -/
abbrev Str := List Char

/-- Case-insensitive string comparison, `a.toLowerCase() === b.toLowerCase()`. -/
def lowerEq (a b : Str) : Bool := a.map Char.toLower == b.map Char.toLower

/-- First index at which `needle` occurs in `hay` (JS `String.prototype.indexOf`),
`none` when there is no occurrence. -/
def indexOfSub (hay needle : Str) : Option Nat :=
  (List.range (hay.length + 1)).find? (fun i => needle.isPrefixOf (hay.drop i))

/-- One verb-preposition entry of a token (an object with `text` and `case`). -/
structure VerbPrep where
  text : String
  case_ : String
deriving DecidableEq, Repr

/-- One analyzed token, as delivered by the backend and consumed by the
highlighter: surface form, POS tag, lemma, half-open character range
`[start, end)` into the analyzed sentence, separable/reflexive flags,
verb prepositions, governed case, and `paired_with`, the list of `start`
offsets of the grammatically linked tokens. -/
structure Token where
  text : Str
  pos : String
  lemma_ : String
  start : Nat
  «end» : Nat
  is_separable : Bool
  is_reflexive : Bool
  verb_prepositions : Option (List VerbPrep)
  governs_case : Option String
  paired_with : Option (List Nat)
deriving DecidableEq, Repr

/-- An analysis result; `tokens` is `none` when the `tokens` field is absent. -/
structure Analysis where
  tokens : Option (List Token)
deriving DecidableEq, Repr

/-- `Highlighter.findTokensToHighlight(tokens, targetWord)`: the first token
whose text matches the target word case-insensitively, plus, for each offset
in its `paired_with` list, the first token whose `start` equals that offset
(added unless already present). -/
def findTokensToHighlight (tokens : List Token) (targetWord : Str) : List Token :=
  match tokens.find? (fun t => lowerEq t.text targetWord) with
  | none => []
  | some targetToken =>
    match targetToken.paired_with with
    | none => [targetToken]
    | some pairedPositions =>
      pairedPositions.foldl (fun result p =>
        match tokens.find? (fun t => t.start == p) with
        | some pairedToken =>
            if result.contains pairedToken then result else result ++ [pairedToken]
        | none => result) [targetToken]

/-- The metadata stamped onto a marker span (the `options` object built in
`applyHighlights` and written as `data-*` attributes in `highlightTextNode`). -/
structure MarkOptions where
  color : String
  pos : String
  lemma_ : String
  label : String
  isSeparable : Bool
  isReflexive : Bool
  verbPrepositions : Option (List VerbPrep)
  governsCase : Option String
deriving DecidableEq, Repr

/-- The class name identifying marker spans: `german-pos-highlight`. -/
def markerClass : String := "german-pos-highlight"

mutual
/-- A DOM node inside the highlighted container: a text node, or an element
with tag, class name, stamped marker metadata (for marker spans) and children. -/
inductive Node where
  | text (data : Str)
  | elem (tag : String) (className : String) (mark : Option MarkOptions) (children : NodeList)
/-- A list of sibling DOM nodes, in document order. -/
inductive NodeList where
  | nil
  | cons (n : Node) (rest : NodeList)
end

/-- Append of sibling lists. -/
def NodeList.append : NodeList → NodeList → NodeList
  | .nil, ys => ys
  | .cons x xs, ys => .cons x (xs.append ys)

instance : Append NodeList := ⟨NodeList.append⟩

/-- A one-element sibling list. -/
def single (n : Node) : NodeList := .cons n .nil

mutual
/-- `node.textContent`: concatenation of all descendant text, document order. -/
def flatN : Node → Str
  | .text s => s
  | .elem _ _ _ cs => flatL cs
/-- Flattened text of a sibling list. -/
def flatL : NodeList → Str
  | .nil => []
  | .cons n r => flatN n ++ flatL r
end

mutual
/-- Per-character flags of `flatN`: `true` iff the character sits inside a
marker element (given whether an ancestor is already a marker). -/
def covN : Bool → Node → List Bool
  | im, .text s => s.map (fun _ => im)
  | im, .elem _ c _ cs => covL (im || c == markerClass) cs
/-- Per-character marker-coverage flags of a sibling list. -/
def covL : Bool → NodeList → List Bool
  | _, .nil => []
  | im, .cons n r => covN im n ++ covL im r
end

mutual
/-- Whether a marker element occurs in the subtree. -/
def hasMarkerN : Node → Bool
  | .text _ => false
  | .elem _ c _ cs => c == markerClass || hasMarkerL cs
/-- Whether a marker element occurs in a sibling list. -/
def hasMarkerL : NodeList → Bool
  | .nil => false
  | .cons n r => hasMarkerN n || hasMarkerL r
end

/-- Whether every node of the list is a text node. -/
def textOnly : NodeList → Bool
  | .nil => true
  | .cons (.text _) r => textOnly r
  | .cons (.elem ..) _ => false

mutual
/-- Well-formedness the engine maintains: every marker element has only text
children. -/
def wfN : Node → Bool
  | .text _ => true
  | .elem _ c _ cs => (if c == markerClass then textOnly cs else true) && wfL cs
/-- List version of `wfN`. -/
def wfL : NodeList → Bool
  | .nil => true
  | .cons n r => wfN n && wfL r
end

mutual
/-- No marker element is nested inside another marker element. -/
def noNestedN : Node → Bool
  | .text _ => true
  | .elem _ c _ cs => (if c == markerClass then !hasMarkerL cs else true) && noNestedL cs
/-- List version of `noNestedN`. -/
def noNestedL : NodeList → Bool
  | .nil => true
  | .cons n r => noNestedN n && noNestedL r
end

mutual
/-- Number of marker elements in the subtree. -/
def countMarkersN : Node → Nat
  | .text _ => 0
  | .elem _ c _ cs => (if c == markerClass then 1 else 0) + countMarkersL cs
/-- Number of marker elements in a sibling list. -/
def countMarkersL : NodeList → Nat
  | .nil => 0
  | .cons n r => countMarkersN n + countMarkersL r
end

/-- Prepend a text node's data to an already-merged sibling list: coalesce with
a leading text node and drop the node when the resulting data is empty (the
`Node.normalize` treatment of adjacent and empty text nodes). -/
def consText (s : Str) (l : NodeList) : NodeList :=
  match l with
  | .cons (.text u) rs => if (s ++ u).isEmpty then rs else .cons (.text (s ++ u)) rs
  | _ => if s.isEmpty then l else .cons (.text s) l

/-- One level of `Node.normalize`: merge runs of adjacent text nodes and drop
empty text nodes (children are assumed already normalized). -/
def mergeAdj : NodeList → NodeList
  | .nil => .nil
  | .cons (.text s) r => consText s (mergeAdj r)
  | .cons n r => .cons n (mergeAdj r)

mutual
/-- Deep part of `Node.normalize`: normalize the children of every element. -/
def deepNormN : Node → Node
  | .text s => .text s
  | .elem tg c mk cs => .elem tg c mk (mergeAdj (deepNormL cs))
/-- Map `deepNormN` over a sibling list (no merging at this level). -/
def deepNormL : NodeList → NodeList
  | .nil => .nil
  | .cons n r => .cons (deepNormN n) (deepNormL r)
end

/-- `parent.normalize()` applied to a child list: normalize deeply, then merge
at this level. -/
def normalizeL (l : NodeList) : NodeList := mergeAdj (deepNormL l)

mutual
/-- Effect of `clearHighlights`/`clearAllHighlights` on one node: every marker
span in the subtree is replaced by its child nodes and the parent is
normalized. Returns the replacement siblings and whether this node itself was
a marker (and so dissolves into its parent). -/
def clearOneN : Node → (NodeList × Bool)
  | .text s => (single (.text s), false)
  | .elem tg c mk cs =>
    let p := clearListN cs
    let cs' := if p.2 then normalizeL p.1 else p.1
    if c == markerClass then (cs', true) else (single (.elem tg c mk cs'), false)
/-- List version of `clearOneN`; the flag says whether a marker was dissolved
directly into this list (so the parent must be normalized). -/
def clearListN : NodeList → (NodeList × Bool)
  | .nil => (.nil, false)
  | .cons n r =>
    let p1 := clearOneN n
    let p2 := clearListN r
    (p1.1 ++ p2.1, p1.2 || p2.2)
end

/-- Remove every marker span strictly inside `container` (the container itself
is never dissolved, matching `container.querySelectorAll`). -/
def clearContainer : Node → Node
  | .text s => .text s
  | .elem tg c mk cs =>
    let p := clearListN cs
    .elem tg c mk (if p.2 then normalizeL p.1 else p.1)

/-- Walker state of `highlightRange`: the running character offset, whether the
`currentOffset >= end` break has fired, and the markers pushed onto
`this.currentHighlights` so far. -/
structure HLSt where
  off : Nat
  brk : Bool
  markers : List Node

/-- The marker span built in `highlightTextNode`: a `span.german-pos-highlight`
stamped with the token metadata, holding the extracted text (childless when
the extracted range is empty, as `extractContents` then yields an empty
fragment). -/
def mkMarker (o : MarkOptions) (mid : Str) : Node :=
  .elem "span" markerClass (some o) (if mid.isEmpty then .nil else single (.text mid))

/-- Result of `range.surroundContents(highlight)` on the sub-range `[hs, he)` of
a text node with data `t`: `extractContents` leaves the text outside the range
in the original node, inserting the marker then splits that node at `hs`, so
the node is replaced by the prefix, the marker, and the suffix (either of
which may be an empty text node). -/
def wrapNodes (o : MarkOptions) (t : Str) (hs he : Nat) : NodeList :=
  .cons (.text (t.take hs))
    (.cons (mkMarker o ((t.take he).drop hs)) (single (.text (t.drop he))))

/-- The fallback path of `highlightTextNode` (`extractContents`, then
`appendChild`, then `insertNode`), written through the intermediate state of
the original text node after extraction. -/
def wrapNodesFallback (o : MarkOptions) (t : Str) (hs he : Nat) : NodeList :=
  let remainder := t.take hs ++ t.drop he
  .cons (.text (remainder.take hs))
    (.cons (mkMarker o ((t.take he).drop hs)) (single (.text (remainder.drop hs))))

/-- The common exit of the `highlightRange` loop body for a text node that is
not wrapped (no intersection with the target range, node already inside a
marker, or fuel exhausted): the node is kept, `currentOffset` advances past it
and the `currentOffset >= end` break condition is evaluated. -/
def processTextSkip (b : Nat) (st : HLSt) (t : Str) : NodeList × HLSt :=
  (single (.text t), ⟨st.off + t.length, decide (b ≤ st.off + t.length), st.markers⟩)

/-- The `highlightRange` walker from one text node on, for the absolute target
range `[a, b)`. `pm` says whether the node's parent is a marker span (the
`highlightTextNode` skip test). Wrapping replaces the node by prefix, marker
and suffix; the live `TreeWalker` then also visits the marker's text child
(skipped, but advancing `currentOffset` by its length — the source of the
offset overcount) and the suffix node, which is processed recursively. The
real loop can run forever on the freshly split empty suffix nodes; `fuel`
bounds that recursion, and on exhaustion the node is left unwrapped. -/
def processText (a b : Nat) (o : MarkOptions) : Nat → Bool → HLSt → Str → (NodeList × HLSt)
  | 0, _, st, t => processTextSkip b st t
  | fuel + 1, pm, st, t =>
    let ns := st.off
    let ne := ns + t.length
    if ne > a ∧ ns < b then
      if pm then processTextSkip b st t
      else
        let he := min t.length (b - ns)
        let hs := min (a - ns) he
        let mid := (t.take he).drop hs
        let mk := mkMarker o mid
        let mks := st.markers ++ [mk]
        if b ≤ ne then (wrapNodes o t hs he, ⟨ne, true, mks⟩)
        else if b ≤ ne + mid.length then (wrapNodes o t hs he, ⟨ne + mid.length, true, mks⟩)
        else
          let p := processText a b o fuel pm ⟨ne + mid.length, false, mks⟩ (t.drop he)
          (.cons (.text (t.take hs)) (.cons mk p.1), p.2)
    else processTextSkip b st t

mutual
/-- The `highlightRange` walker on one node: elements are not visited
themselves (SHOW_TEXT), their text descendants are, with `pm` recording
whether the immediate parent is a marker span. -/
def processNode (a b : Nat) (o : MarkOptions) (fuel : Nat) : Bool → HLSt → Node → (NodeList × HLSt)
  | pm, st, .text t => processText a b o fuel pm st t
  | _, st, .elem tg c mk cs =>
    let p := processForest a b o fuel (c == markerClass) st cs
    (single (.elem tg c mk p.1), p.2)
/-- The `highlightRange` walker over a sibling list; once the break has fired
the remaining nodes are left untouched. -/
def processForest (a b : Nat) (o : MarkOptions) (fuel : Nat) : Bool → HLSt → NodeList → (NodeList × HLSt)
  | _, st, .nil => (.nil, st)
  | pm, st, .cons n r =>
    if st.brk then (.cons n r, st)
    else
      let p1 := processNode a b o fuel pm st n
      let p2 := processForest a b o fuel pm p1.2 r
      (p1.1 ++ p2.1, p2.2)
end

/-- `Highlighter.highlightRange(container, start, end, options)`: walk the
container's text nodes in document order with a running offset and wrap every
intersecting sub-range. Returns the mutated container and the updated
`currentHighlights` list. -/
def highlightRange (fuel a b : Nat) (o : MarkOptions) (container : Node)
    (markers : List Node) : Node × List Node :=
  match container with
  | .text s => (.text s, markers)
  | .elem tg c mk cs =>
    let p := processForest a b o fuel (c == markerClass) ⟨0, false, markers⟩ cs
    (.elem tg c mk p.1, p.2.markers)

/-- The mutable bookkeeping of the `Highlighter` object: `currentHighlights`
and `currentContainer`. -/
structure HState where
  currentHighlights : List Node
  currentContainer : Option Node

/-- `Highlighter.clearHighlights(container)`: a falsy container returns at
once; otherwise every marker span inside the container is unwrapped, parents
are normalized, and `currentHighlights` is reset (`currentContainer` is not
touched). -/
def clearHighlights (st : HState) (container : Option Node) : HState × Option Node :=
  match container with
  | none => (st, none)
  | some c => (⟨[], st.currentContainer⟩, some (clearContainer c))

/-- `Highlighter.clearAllHighlights()`: unwrap every marker span in the whole
document and reset both `currentHighlights` and `currentContainer`. -/
def clearAllHighlights (st : HState) (document : Node) : HState × Node :=
  (⟨[], none⟩, clearContainer document)

/-- The ambient `window.POS_COLORS` / `window.POS_LABELS` maps. -/
structure HLConfig where
  posColors : String → Option String
  posLabels : String → Option String

/-- The `options` object `applyHighlights` builds for one token. -/
def mkOptions (cfg : HLConfig) (token : Token) : MarkOptions :=
  ⟨(cfg.posColors token.pos).getD "#CCCCCC", token.pos, token.lemma_,
    (cfg.posLabels token.pos).getD token.pos, token.is_separable, token.is_reflexive,
    token.verb_prepositions, token.governs_case⟩

/-- The per-token step of `applyHighlights`: wrap the token's range, offset by
the position of the analyzed text, and record the new markers. -/
def hlStep (fuel : Nat) (cfg : HLConfig) (base : Nat) (acc : Node × HState)
    (token : Token) : Node × HState :=
  let p := highlightRange fuel (base + token.start) (base + token.«end»)
    (mkOptions cfg token) acc.1 acc.2.currentHighlights
  (p.1, ⟨p.2, acc.2.currentContainer⟩)

/-- Result of `applyHighlights`: the updated bookkeeping, the (possibly
mutated) container, and whether the `Analyzed text not found in container`
diagnostic was emitted. -/
structure ApplyResult where
  state : HState
  container : Node
  warned : Bool

/-- `Highlighter.applyHighlights(container, analysis, originalText,
targetWord)`: return at once on a missing/empty token list; otherwise clear
the container, record it as current, locate the analyzed text inside
`container.textContent` (warn and stop when absent), select the tokens for the
target word, and wrap each token's range offset by the found position. -/
def applyHighlights (fuel : Nat) (cfg : HLConfig) (st : HState) (container : Node)
    (analysis : Option Analysis) (originalText targetWord : Str) : ApplyResult :=
  match analysis with
  | none => ⟨st, container, false⟩
  | some an =>
    match an.tokens with
    | none => ⟨st, container, false⟩
    | some tokens =>
      if tokens.isEmpty then ⟨st, container, false⟩
      else
        let c1 := clearContainer container
        let st2 : HState := ⟨[], some c1⟩
        match indexOfSub (flatN c1) originalText with
        | none => ⟨st2, c1, true⟩
        | some analyzedTextPosition =>
          let sel := findTokensToHighlight tokens targetWord
          let r := sel.foldl (hlStep fuel cfg analyzedTextPosition) (c1, st2)
          ⟨r.2, r.1, false⟩

/-- One public engine call on a container: a highlight request, a clear of the
container, or a whole-document clear. -/
inductive EngineOp where
  | highlight (analysis : Option Analysis) (originalText targetWord : Str)
  | clear
  | clearAll

/-- Run one engine call against the bookkeeping and the container. -/
def runOp (fuel : Nat) (cfg : HLConfig) (s : HState × Node) : EngineOp → HState × Node
  | .highlight an ot tw =>
    let r := applyHighlights fuel cfg s.1 s.2 an ot tw
    (r.state, r.container)
  | .clear => ((clearHighlights s.1 (some s.2)).1, clearContainer s.2)
  | .clearAll => clearAllHighlights s.1 s.2

/-- Run a sequence of engine calls. -/
def runOps (fuel : Nat) (cfg : HLConfig) (init : HState × Node) (ops : List EngineOp) :
    HState × Node :=
  ops.foldl (runOp fuel cfg) init

/-- Tooltip state: how many tooltip nodes (`id='german-pos-tooltip'`) are in
the document, and the pending `hideTooltipTimer` deadline, if any. -/
structure TooltipSt where
  tooltipCount : Nat
  hideTooltipTimer : Option Nat
deriving DecidableEq, Repr

/-- Tooltip events: hover-enter (`showTooltip`), hover-leave (`hideTooltip`,
i.e. schedule-hide at the given clock time), `hideTooltipImmediately`, and the
firing of a pending timer at its deadline. -/
inductive TooltipEvent where
  | showTooltip (now : Nat)
  | hideTooltip (now : Nat)
  | hideTooltipImmediately
  | timerFire (t : Nat)

/-- One tooltip transition. `showTooltip` clears any pending timer, removes the
existing tooltip node and appends a fresh one. `hideTooltip` clears any
pending timer and schedules a new hide 100 ms from now. `hideTooltipImmediately`
removes the tooltip node by id (one node at most) and leaves the timer alone.
A timer that reaches its deadline removes the tooltip and nulls the timer. -/
def tooltipStep (st : TooltipSt) : TooltipEvent → TooltipSt
  | .showTooltip _ => ⟨st.tooltipCount - 1 + 1, none⟩
  | .hideTooltip now => ⟨st.tooltipCount, some (now + 100)⟩
  | .hideTooltipImmediately => ⟨st.tooltipCount - 1, st.hideTooltipTimer⟩
  | .timerFire t => if st.hideTooltipTimer = some t then ⟨st.tooltipCount - 1, none⟩ else st

/-- Run a sequence of tooltip events from the initial state (no tooltip, no
pending timer). -/
def tooltipRun (evs : List TooltipEvent) : TooltipSt :=
  evs.foldl tooltipStep ⟨0, none⟩

/-- The separable-verb token `stehe` of `Ich stehe um 7 Uhr auf.`, paired with
the prefix token at offset 21. -/
def tokStehe : Token :=
  ⟨"stehe".data, "VERB", "aufstehen", 4, 9, true, false, none, none, some [21]⟩

/-- The separable prefix token `auf` of the same sentence, paired back with
the verb token at offset 4. -/
def tokAuf : Token :=
  ⟨"auf".data, "ADP", "aufstehen", 21, 24, true, false, none, none, some [4]⟩

/-- Token list of the demo sentence. -/
def demoTokens : List Token := [tokStehe, tokAuf]

/-- A configuration with empty `POS_COLORS` / `POS_LABELS` maps. -/
def cfg0 : HLConfig := ⟨fun _ => none, fun _ => none⟩

/-- A container whose flattened text `abcdefghijkl` is split over two text
nodes. -/
def demoContainer : Node :=
  .elem "div" "" none (.cons (.text "abcdef".data) (single (.text "ghijkl".data)))

/-- A single token covering `cdefgh`, i.e. the range `[2, 8)` of the demo
container's text — it spans both text nodes. -/
def c1Token : Token :=
  ⟨"cdefgh".data, "X", "x", 2, 8, false, false, none, none, none⟩

/-- The container after requesting a highlight of `cdefgh` over the whole
demo text. -/
def c1Result : Node :=
  (applyHighlights 9 cfg0 ⟨[], none⟩ demoContainer (some ⟨some [c1Token]⟩)
    "abcdefghijkl".data "cdefgh".data).container

/-- A container that already holds one marker span (wrapping `ab`) next to a
text node `cd`. -/
def markedContainer : Node :=
  .elem "div" "" none
    (.cons (mkMarker ⟨"", "X", "x", "X", false, false, none, none⟩ "ab".data)
      (single (.text "cd".data)))

/-- The step function of the pairing expansion inside `findTokensToHighlight`. -/
def pairStep (tokens : List Token) (result : List Token) (p : Nat) : List Token :=
  match tokens.find? (fun t => t.start == p) with
  | some pairedToken =>
      if result.contains pairedToken then result else result ++ [pairedToken]
  | none => result

theorem findTokensToHighlight_eq_foldl (tokens : List Token) (w : Str) (tgt : Token)
    (ps : List Nat) (h : tokens.find? (fun t => lowerEq t.text w) = some tgt)
    (hps : tgt.paired_with = some ps) :
    findTokensToHighlight tokens w = ps.foldl (pairStep tokens) [tgt] := by
  unfold findTokensToHighlight
  rw [h]
  simp only [hps]
  rfl

theorem mem_pairStep (tokens : List Token) (acc : List Token) (p : Nat) (m : Token) :
    m ∈ pairStep tokens acc p ↔
      m ∈ acc ∨ tokens.find? (fun t => t.start == p) = some m := by
  unfold pairStep
  cases hf : tokens.find? (fun t => t.start == p) with
  | none => simp
  | some pt =>
    by_cases hc : acc.contains pt
    · have hmem : pt ∈ acc := by simpa using hc
      simp only [if_pos hc]
      constructor
      · exact Or.inl
      · rintro (h | h)
        · exact h
        · injection h with h2
          exact h2 ▸ hmem
    · simp only [if_neg (by simpa using hc : ¬acc.contains pt = true)]
      rw [List.mem_append, List.mem_singleton]
      constructor
      · rintro (h | h)
        · exact Or.inl h
        · exact Or.inr (by rw [h])
      · rintro (h | h)
        · exact Or.inl h
        · injection h with h2
          exact Or.inr h2.symm

theorem mem_pairStep_foldl (tokens : List Token) (ps : List Nat) (acc : List Token)
    (m : Token) :
    m ∈ ps.foldl (pairStep tokens) acc ↔
      m ∈ acc ∨ ∃ p ∈ ps, tokens.find? (fun t => t.start == p) = some m := by
  induction ps generalizing acc with
  | nil => simp
  | cons p ps ih =>
    rw [List.foldl_cons, ih, mem_pairStep]
    constructor
    · rintro ((h | h) | ⟨x, hx, hfind⟩)
      · exact Or.inl h
      · exact Or.inr ⟨p, List.mem_cons_self p ps, h⟩
      · exact Or.inr ⟨x, List.mem_cons_of_mem p hx, hfind⟩
    · rintro (h | ⟨x, hx, hfind⟩)
      · exact Or.inl (Or.inl h)
      · rcases List.mem_cons.mp hx with rfl | hx2
        · exact Or.inl (Or.inr hfind)
        · exact Or.inr ⟨x, hx2, hfind⟩

theorem find?_start_of_pairwise (tokens : List Token) (B : Token)
    (hp : tokens.Pairwise (fun x y => x.start ≠ y.start)) (hB : B ∈ tokens) :
    tokens.find? (fun t => t.start == B.start) = some B := by
  induction tokens with
  | nil => cases hB
  | cons h tl ih =>
    rcases List.mem_cons.mp hB with rfl | hBtl
    · simp [List.find?]
    · have hne : h.start ≠ B.start := (List.pairwise_cons.mp hp).1 B hBtl
      have hfalse : (h.start == B.start) = false := by simpa using hne
      rw [List.find?_cons_of_neg _ (by simp [hfalse])]
      exact ih (List.pairwise_cons.mp hp).2 hBtl

/-- C3: token selection returns the empty list when no token's surface text
equals the target word case-insensitively; otherwise its members are exactly
the first case-insensitively matching token together with, for each offset in
that token's `paired_with` list, the first token whose `start` equals that
offset — a single level of expansion, with no multi-hop transitive closure. -/
theorem C3_token_selection (tokens : List Token) (w : Str) :
    ((∀ t ∈ tokens, lowerEq t.text w = false) → findTokensToHighlight tokens w = []) ∧
    (∀ tgt, tokens.find? (fun t => lowerEq t.text w) = some tgt →
      ∀ m, m ∈ findTokensToHighlight tokens w ↔
        m = tgt ∨ ∃ p ∈ tgt.paired_with.getD [],
          tokens.find? (fun t => t.start == p) = some m) := by
  constructor
  · intro hnone
    have hfind : tokens.find? (fun t => lowerEq t.text w) = none :=
      List.find?_eq_none.mpr (fun t ht => by simp [hnone t ht])
    unfold findTokensToHighlight
    rw [hfind]
  · intro tgt htgt m
    cases hpw : tgt.paired_with with
    | none =>
      unfold findTokensToHighlight
      rw [htgt]
      simp [hpw]
    | some ps =>
      rw [findTokensToHighlight_eq_foldl tokens w tgt ps htgt hpw, mem_pairStep_foldl]
      simp [hpw]

/-- C3 witness: in the demo sentence, clicking `auf` selects the prefix token
and expands exactly through its `paired_with` offsets. -/
theorem C3_token_selection_witness :
    demoTokens.find? (fun t => lowerEq t.text "auf".data) = some tokAuf ∧
    (tokStehe ∈ findTokensToHighlight demoTokens "auf".data ↔
      tokStehe = tokAuf ∨ ∃ p ∈ tokAuf.paired_with.getD [],
        demoTokens.find? (fun t => t.start == p) = some tokStehe) :=
  ⟨by decide, (C3_token_selection demoTokens "auf".data).2 tokAuf (by decide) tokStehe⟩

/-- C4: in a token list with pairwise distinct `start` offsets (as holds for
the tokens of one analyzed sentence), if token `B`'s start is listed in token
`A`'s `paired_with` and the clicked word selects `A` as target, then `B` is a
member of the selected set; the statement applied with `A` and `B` exchanged
gives the symmetric direction. -/
theorem C4_pairing_symmetry (tokens : List Token) (w : Str) (A B : Token)
    (hp : tokens.Pairwise (fun x y => x.start ≠ y.start))
    (hB : B ∈ tokens)
    (hpair : B.start ∈ A.paired_with.getD [])
    (hA : tokens.find? (fun t => lowerEq t.text w) = some A) :
    B ∈ findTokensToHighlight tokens w := by
  cases hpw : A.paired_with with
  | none => rw [hpw] at hpair; cases hpair
  | some ps =>
    rw [findTokensToHighlight_eq_foldl tokens w A ps hA hpw, mem_pairStep_foldl]
    exact Or.inr ⟨B.start, by rw [hpw] at hpair; simpa using hpair,
      find?_start_of_pairwise tokens B hp hB⟩

/-- C4 witness: clicking `auf` in the demo sentence also selects the paired
verb token `stehe`. -/
theorem C4_pairing_symmetry_witness :
    tokStehe ∈ findTokensToHighlight demoTokens "auf".data :=
  C4_pairing_symmetry demoTokens "auf".data tokAuf tokStehe (by decide) (by decide)
    (by decide) (by decide)

theorem tooltipCount_le_one_step (st : TooltipSt) (e : TooltipEvent)
    (hst : st.tooltipCount ≤ 1) : (tooltipStep st e).tooltipCount ≤ 1 := by
  cases e with
  | showTooltip now => simp [tooltipStep]; omega
  | hideTooltip now => simpa [tooltipStep] using hst
  | hideTooltipImmediately => simp [tooltipStep]; omega
  | timerFire t =>
    simp only [tooltipStep]
    split
    · simp; omega
    · exact hst

/-- C9: after any sequence of hover-enter and hover-leave events (including
immediate hides and timer firings), at most one tooltip node exists in the
document. -/
theorem C9_single_tooltip (evs : List TooltipEvent) :
    (tooltipRun evs).tooltipCount ≤ 1 := by
  suffices h : ∀ st : TooltipSt, st.tooltipCount ≤ 1 →
      (evs.foldl tooltipStep st).tooltipCount ≤ 1 from h ⟨0, none⟩ (by decide)
  induction evs with
  | nil => exact fun st hst => hst
  | cons e evs ih =>
    intro st hst
    exact ih (tooltipStep st e) (tooltipCount_le_one_step st e hst)

/-- C5 counterexample: with a hide already pending for deadline 100, calling
`hideTooltip` at time 50 replaces the pending hide by a fresh one with
deadline 150 — the existing pending hide is not left in place. -/
theorem C5_schedule_hide_counterexample :
    (tooltipStep ⟨1, some 100⟩ (.hideTooltip 50)).hideTooltipTimer = some 150 ∧
    some 150 ≠ (some 100 : Option Nat) := by decide

/-- C5 (amended): `hideTooltip` always cancels any pending hide and schedules a
fresh one 100 ms from now (a pending hide is replaced, pushing the deadline
back, not left in place); the tooltip itself is not removed by the call; a
pending timer that reaches its deadline removes the tooltip and clears the
timer; and `showTooltip` cancels the pending hide, so the tooltip is not
removed by that timer. -/
theorem C5_schedule_hide (st : TooltipSt) (now t : Nat) :
    (tooltipStep st (.hideTooltip now)).hideTooltipTimer = some (now + 100) ∧
    (tooltipStep st (.hideTooltip now)).tooltipCount = st.tooltipCount ∧
    (st.hideTooltipTimer = some t →
      tooltipStep st (.timerFire t) = ⟨st.tooltipCount - 1, none⟩) ∧
    (tooltipStep st (.showTooltip now)).hideTooltipTimer = none := by
  refine ⟨rfl, rfl, ?_, rfl⟩
  intro h
  simp [tooltipStep, h]

/-- C5 witness: a pending hide with deadline 100 fires and removes the
tooltip. -/
theorem C5_schedule_hide_witness :
    tooltipStep ⟨1, some 100⟩ (.timerFire 100) = ⟨0, none⟩ :=
  (C5_schedule_hide ⟨1, some 100⟩ 50 100).2.2.1 rfl

theorem nodeInd (P : Node → Prop) (Q : NodeList → Prop)
    (h1 : ∀ s, P (.text s))
    (h2 : ∀ tg c mk cs, Q cs → P (.elem tg c mk cs))
    (h3 : Q .nil)
    (h4 : ∀ n r, P n → Q r → Q (.cons n r)) :
    (∀ n, P n) ∧ (∀ l, Q l) :=
  ⟨fun n => @Node.rec P Q h1 h2 h3 h4 n, fun l => @NodeList.rec P Q h1 h2 h3 h4 l⟩

theorem cons_append (n : Node) (r l : NodeList) :
    (NodeList.cons n r) ++ l = .cons n (r ++ l) := rfl

theorem nil_append (l : NodeList) : (NodeList.nil : NodeList) ++ l = l := rfl

theorem flatL_append (x y : NodeList) : flatL (x ++ y) = flatL x ++ flatL y :=
  match x with
  | .nil => rfl
  | .cons n r => by
    rw [cons_append]
    simp only [flatL, flatL_append r y, List.append_assoc]

theorem flat_mkMarker (o : MarkOptions) (mid : Str) : flatN (mkMarker o mid) = mid := by
  cases mid with
  | nil => rfl
  | cons c cs => simp [mkMarker, single, flatN, flatL]

theorem take_mid_drop (t : Str) (hs he : Nat) (h1 : hs ≤ he) :
    t.take hs ++ ((t.take he).drop hs ++ t.drop he) = t := by
  rw [← List.append_assoc]
  have h3 : t.take hs = (t.take he).take hs := by
    rw [List.take_take, Nat.min_eq_left h1]
  rw [h3, List.take_append_drop, List.take_append_drop]

theorem flatL_consText (s : Str) (l : NodeList) : flatL (consText s l) = s ++ flatL l := by
  cases l with
  | nil =>
    cases s with
    | nil => rfl
    | cons c cs => simp [consText, single, flatL, flatN]
  | cons n rs =>
    cases n with
    | text u =>
      simp only [consText]
      by_cases h : (s ++ u).isEmpty
      · rcases List.append_eq_nil.mp (List.isEmpty_iff.mp h) with ⟨rfl, rfl⟩
        simp [h, flatL, flatN]
      · simp [h, flatL, flatN]
    | elem tg c mk cs =>
      cases s with
      | nil => rfl
      | cons c2 cs2 => simp [consText, flatL, flatN]

theorem flatL_mergeAdj (l : NodeList) : flatL (mergeAdj l) = flatL l :=
  match l with
  | .nil => rfl
  | .cons (.text s) r => by
    simp only [mergeAdj, flatL_consText, flatL, flatN, flatL_mergeAdj r]
  | .cons (.elem tg c mk cs) r => by
    simp only [mergeAdj, flatL, flatL_mergeAdj r]

theorem flat_deepNorm :
    (∀ n, flatN (deepNormN n) = flatN n) ∧ (∀ l, flatL (deepNormL l) = flatL l) := by
  refine nodeInd _ _ ?_ ?_ ?_ ?_
  · intro s; rfl
  · intro tg c mk cs ih
    simp only [deepNormN, flatN, flatL_mergeAdj, ih]
  · rfl
  · intro n r ihn ihr
    simp only [deepNormL, flatL, ihn, ihr]

theorem flatL_normalizeL (l : NodeList) : flatL (normalizeL l) = flatL l := by
  simp only [normalizeL, flatL_mergeAdj, flat_deepNorm.2 l]

theorem flat_clear :
    (∀ n, flatL (clearOneN n).1 = flatN n) ∧ (∀ l, flatL (clearListN l).1 = flatL l) := by
  refine nodeInd _ _ ?_ ?_ ?_ ?_
  · intro s; simp [clearOneN, single, flatL, flatN]
  · intro tg c mk cs ih
    simp only [clearOneN]
    by_cases hd : (clearListN cs).2
    · by_cases hm : c == markerClass <;>
        simp [hd, hm, single, flatL, flatN, flatL_normalizeL, ih]
    · by_cases hm : c == markerClass <;>
        simp [hd, hm, single, flatL, flatN, ih]
  · rfl
  · intro n r ihn ihr
    simp only [clearListN, flatL_append, flatL, ihn, ihr]

theorem flatN_clearContainer (n : Node) : flatN (clearContainer n) = flatN n := by
  cases n with
  | text s => rfl
  | elem tg c mk cs =>
    simp only [clearContainer, flatN]
    by_cases hd : (clearListN cs).2 <;>
      simp [hd, flatL_normalizeL, flat_clear.2 cs]

theorem flatN_text (s : Str) : flatN (.text s) = s := rfl

theorem flatN_elem (tg c : String) (mk : Option MarkOptions) (cs : NodeList) :
    flatN (.elem tg c mk cs) = flatL cs := rfl

theorem flatL_nil : flatL .nil = [] := rfl

theorem flatL_cons (n : Node) (r : NodeList) : flatL (.cons n r) = flatN n ++ flatL r := rfl

theorem flat_processText (a b : Nat) (o : MarkOptions) :
    ∀ (fuel : Nat) (pm : Bool) (st : HLSt) (t : Str),
      flatL (processText a b o fuel pm st t).1 = t := by
  intro fuel
  induction fuel with
  | zero =>
    intro pm st t
    simp [processText, processTextSkip, single, flatL, flatN]
  | succ fuel ih =>
    intro pm st t
    simp only [processText]
    split
    · split
      · simp [processTextSkip, single, flatL, flatN]
      · split
        · simp only [wrapNodes, single, flatL_cons, flatL_nil, flatN_text, flat_mkMarker,
            List.append_nil]
          exact take_mid_drop t _ _ (Nat.min_le_right _ _)
        · split
          · simp only [wrapNodes, single, flatL_cons, flatL_nil, flatN_text, flat_mkMarker,
              List.append_nil]
            exact take_mid_drop t _ _ (Nat.min_le_right _ _)
          · simp only [flatL_cons, flatN_text, flat_mkMarker, ih]
            exact take_mid_drop t _ _ (Nat.min_le_right _ _)
    · simp [processTextSkip, single, flatL, flatN]

theorem flat_process (a b : Nat) (o : MarkOptions) (fuel : Nat) :
    (∀ n, ∀ pm st, flatL (processNode a b o fuel pm st n).1 = flatN n) ∧
    (∀ l, ∀ pm st, flatL (processForest a b o fuel pm st l).1 = flatL l) := by
  refine nodeInd
    (fun n => ∀ pm st, flatL (processNode a b o fuel pm st n).1 = flatN n)
    (fun l => ∀ pm st, flatL (processForest a b o fuel pm st l).1 = flatL l) ?_ ?_ ?_ ?_
  · intro s pm st
    exact flat_processText a b o fuel pm st s
  · intro tg c mk cs ih pm st
    simp [processNode, flatN_elem, single, flatL_cons, flatL_nil, ih]
  · intro pm st
    rfl
  · intro n r ihn ihr pm st
    simp only [processForest]
    split
    · rfl
    · simp only [flatL_append, flatL, ihn, ihr]

theorem flatN_highlightRange (fuel a b : Nat) (o : MarkOptions) (c : Node)
    (mks : List Node) : flatN (highlightRange fuel a b o c mks).1 = flatN c := by
  cases c with
  | text s => rfl
  | elem tg cl mk cs =>
    simp only [highlightRange, flatN]
    exact (flat_process a b o fuel).2 cs _ _

theorem flat_hlStep_foldl (fuel : Nat) (cfg : HLConfig) (base : Nat) (sel : List Token) :
    ∀ acc : Node × HState,
      flatN (sel.foldl (hlStep fuel cfg base) acc).1 = flatN acc.1 := by
  induction sel with
  | nil => intro acc; rfl
  | cons tk sel ih =>
    intro acc
    rw [List.foldl_cons, ih]
    exact flatN_highlightRange fuel _ _ _ acc.1 _

theorem flatN_applyHighlights (fuel : Nat) (cfg : HLConfig) (st : HState) (c : Node)
    (an : Option Analysis) (s w : Str) :
    flatN (applyHighlights fuel cfg st c an s w).container = flatN c := by
  unfold applyHighlights
  cases an with
  | none => rfl
  | some a =>
    cases ht : a.tokens with
    | none => simp only [ht]
    | some toks =>
      simp only [ht]
      by_cases he2 : toks.isEmpty
      · simp [he2]
      · simp only [he2, Bool.false_eq_true, if_neg, if_false]
        cases hio : indexOfSub (flatN (clearContainer c)) s with
        | none => simpa [hio] using flatN_clearContainer c
        | some base =>
          simp only [hio]
          rw [flat_hlStep_foldl]
          exact flatN_clearContainer c

/-- C2: for a container whose flattened text contains the analyzed sentence,
clearing after highlighting — via `clearHighlights` or `clearAllHighlights` —
restores `container.textContent` byte-for-byte to its pre-highlight value; and
the primary `surroundContents` wrapping and the `extractContents` fallback
produce identical replacement nodes, so the round trip covers both wrapping
strategies. -/
theorem C2_round_trip (fuel : Nat) (cfg : HLConfig) (st : HState) (container : Node)
    (analysis : Option Analysis) (s w : Str)
    (hocc : (indexOfSub (flatN container) s).isSome = true) :
    (∀ c', (clearHighlights (applyHighlights fuel cfg st container analysis s w).state
        (some (applyHighlights fuel cfg st container analysis s w).container)).2 = some c' →
        flatN c' = flatN container) ∧
    flatN (clearAllHighlights (applyHighlights fuel cfg st container analysis s w).state
        (applyHighlights fuel cfg st container analysis s w).container).2 = flatN container ∧
    ∀ (o : MarkOptions) (t : Str) (hs he : Nat), hs ≤ he → he ≤ t.length →
      wrapNodesFallback o t hs he = wrapNodes o t hs he := by
  refine ⟨?_, ?_, ?_⟩
  · intro c' h
    have h2 : c' = clearContainer (applyHighlights fuel cfg st container analysis s w).container := by
      simpa [clearHighlights] using h.symm
    rw [h2, flatN_clearContainer, flatN_applyHighlights]
  · show flatN (clearContainer _) = _
    rw [flatN_clearContainer, flatN_applyHighlights]
  · intro o t hs he h1 h2
    unfold wrapNodesFallback wrapNodes
    have hlen : (t.take hs).length = hs := by
      rw [List.length_take]
      exact Nat.min_eq_left (le_trans h1 h2)
    simp only [List.take_left' hlen, List.drop_left' hlen]

/-- C2 witness: the demo container contains the demo text, and the round trip
at that input restores the flattened text. -/
theorem C2_round_trip_witness :
    (indexOfSub (flatN demoContainer) "abcdefghijkl".data).isSome = true ∧
    flatN (clearAllHighlights
      (applyHighlights 9 cfg0 ⟨[], none⟩ demoContainer (some ⟨some [c1Token]⟩)
        "abcdefghijkl".data "cdefgh".data).state
      (applyHighlights 9 cfg0 ⟨[], none⟩ demoContainer (some ⟨some [c1Token]⟩)
        "abcdefghijkl".data "cdefgh".data).container).2 = flatN demoContainer :=
  ⟨by decide, (C2_round_trip 9 cfg0 ⟨[], none⟩ demoContainer (some ⟨some [c1Token]⟩)
      "abcdefghijkl".data "cdefgh".data (by decide)).2.1⟩

/-- C10: a missing analysis, a missing `tokens` field, or an empty token list
makes `applyHighlights` return at once: the container — markers of a previous
highlight operation included — and the registry bookkeeping are returned
exactly as they were and no diagnostic is raised, because the early return
precedes the clearing step. -/
theorem C10_early_return (fuel : Nat) (cfg : HLConfig) (st : HState) (c : Node)
    (s w : Str) :
    applyHighlights fuel cfg st c none s w = ⟨st, c, false⟩ ∧
    applyHighlights fuel cfg st c (some ⟨none⟩) s w = ⟨st, c, false⟩ ∧
    applyHighlights fuel cfg st c (some ⟨some []⟩) s w = ⟨st, c, false⟩ :=
  ⟨rfl, rfl, rfl⟩

/-- C7 counterexample: `clearHighlights` does not reset the tracked container:
with a container recorded in the registry, the registry still tracks it after
the call, instead of being in the empty state with no tracked container. -/
theorem C7_registry_counterexample :
    (clearHighlights ⟨[Node.text "m".data], some (Node.text "y".data)⟩
      (some (Node.elem "div" "" none .nil))).1.currentContainer =
        some (Node.text "y".data) ∧
    some (Node.text "y".data) ≠ (none : Option Node) :=
  ⟨rfl, fun h => Option.noConfusion h⟩

/-- C7 (amended): after `clearAllHighlights` the registry is fully reset (no
tracked markers, no tracked container); after `clearHighlights` on a container
the marker list is reset but the tracked container is left unchanged. -/
theorem C7_registry_reset (st : HState) (c doc : Node) :
    (clearHighlights st (some c)).1.currentHighlights = [] ∧
    (clearHighlights st (some c)).1.currentContainer = st.currentContainer ∧
    (clearAllHighlights st doc).1.currentHighlights = [] ∧
    (clearAllHighlights st doc).1.currentContainer = none :=
  ⟨rfl, rfl, rfl, rfl⟩

/-- C6 counterexample: on a container already holding a marker, a highlight
request whose sentence does not occur in the container's text does mutate the
DOM: the diagnostic is raised but the pre-existing marker has been removed
(the clearing step runs before the sentence check), so the DOM is not left
untouched. -/
theorem C6_sentence_not_found_counterexample :
    (applyHighlights 5 cfg0 ⟨[], none⟩ markedContainer (some ⟨some [tokStehe]⟩)
      "zz".data "zz".data).warned = true ∧
    (applyHighlights 5 cfg0 ⟨[], none⟩ markedContainer (some ⟨some [tokStehe]⟩)
      "zz".data "zz".data).container ≠ markedContainer := by
  refine ⟨by decide, fun h => absurd (congrArg countMarkersN h) (by decide)⟩

/-- C6 (amended): when the sentence does not occur in the container's text the
request is aborted as non-fatal: the diagnostic is raised, no marker is
created (the registry's marker list ends empty), and the DOM is exactly the
result of the initial clearing step — untouched except that highlights of a
previous operation on the container are removed, since the clearing precedes
the sentence check. -/
theorem C6_sentence_not_found (fuel : Nat) (cfg : HLConfig) (st : HState) (c : Node)
    (an : Analysis) (s w : Str) (toks : List Token)
    (htoks : an.tokens = some toks) (hne : toks ≠ [])
    (hocc : indexOfSub (flatN c) s = none) :
    applyHighlights fuel cfg st c (some an) s w =
      ⟨⟨[], some (clearContainer c)⟩, clearContainer c, true⟩ := by
  unfold applyHighlights
  simp only [htoks]
  have hie : toks.isEmpty = false := by
    cases toks with
    | nil => exact absurd rfl hne
    | cons a l => rfl
  have hocc2 : indexOfSub (flatN (clearContainer c)) s = none := by
    rw [flatN_clearContainer]
    exact hocc
  simp only [hie, Bool.false_eq_true, if_false, hocc2]

/-- C6 witness: a concrete aborted request on a marker-free container. -/
theorem C6_sentence_not_found_witness :
    applyHighlights 5 cfg0 ⟨[], none⟩ demoContainer (some ⟨some [tokStehe]⟩)
      "zz".data "zz".data =
      ⟨⟨[], some (clearContainer demoContainer)⟩, clearContainer demoContainer, true⟩ :=
  C6_sentence_not_found 5 cfg0 ⟨[], none⟩ demoContainer ⟨some [tokStehe]⟩ "zz".data
    "zz".data [tokStehe] rfl (by decide) (by decide)

theorem wfN_text (s : Str) : wfN (.text s) = true := rfl

theorem wfN_elem (tg c : String) (mk : Option MarkOptions) (cs : NodeList) :
    wfN (.elem tg c mk cs) =
      ((if c == markerClass then textOnly cs else true) && wfL cs) := rfl

theorem wfL_cons (n : Node) (r : NodeList) : wfL (.cons n r) = (wfN n && wfL r) := rfl

theorem wfL_nil : wfL .nil = true := rfl

theorem wfL_append (x y : NodeList) : wfL (x ++ y) = (wfL x && wfL y) :=
  match x with
  | .nil => by simp [nil_append, wfL_nil]
  | .cons n r => by
    rw [cons_append, wfL_cons, wfL_cons, wfL_append r y, Bool.and_assoc]

theorem hasMarkerL_cons (n : Node) (r : NodeList) :
    hasMarkerL (.cons n r) = (hasMarkerN n || hasMarkerL r) := rfl

theorem hasMarkerL_append (x y : NodeList) :
    hasMarkerL (x ++ y) = (hasMarkerL x || hasMarkerL y) :=
  match x with
  | .nil => by simp [nil_append, hasMarkerL]
  | .cons n r => by
    rw [cons_append, hasMarkerL_cons, hasMarkerL_cons, hasMarkerL_append r y, Bool.or_assoc]

theorem processText_pm_true (a b : Nat) (o : MarkOptions) (fuel : Nat) (st : HLSt)
    (t : Str) : processText a b o fuel true st t = processTextSkip b st t := by
  cases fuel with
  | zero => rfl
  | succ fuel =>
    rw [processText]
    split
    · rfl
    · rfl

theorem textOnly_processForest (a b : Nat) (o : MarkOptions) (fuel : Nat) :
    ∀ l, textOnly l = true → ∀ st, (processForest a b o fuel true st l).1 = l := by
  intro l
  match l with
  | .nil => intro _ st; rfl
  | .cons (.text t) r =>
    intro h st
    simp only [processForest]
    split
    · rfl
    · have hr := textOnly_processForest a b o fuel r (by simpa [textOnly] using h)
      simp only [processNode, processText_pm_true, processTextSkip, hr, cons_append,
        nil_append, single]
  | .cons (.elem tg c mk cs) r =>
    intro h st
    simp [textOnly] at h

theorem textOnly_no_marker (l : NodeList) (h : textOnly l = true) :
    hasMarkerL l = false :=
  match l with
  | .nil => rfl
  | .cons (.text t) r => by
    simp only [hasMarkerL_cons, hasMarkerN]
    exact textOnly_no_marker r (by simpa [textOnly] using h)
  | .cons (.elem tg c mk cs) r => by simp [textOnly] at h

theorem wf_of_no_marker :
    (∀ n, hasMarkerN n = false → wfN n = true) ∧
    (∀ l, hasMarkerL l = false → wfL l = true) := by
  refine nodeInd _ _ ?_ ?_ ?_ ?_
  · intro s _; rfl
  · intro tg c mk cs ih h
    simp only [hasMarkerN, Bool.or_eq_false_iff] at h
    simp [wfN_elem, h.1, ih h.2]
  · intro _; rfl
  · intro n r ihn ihr h
    simp only [hasMarkerL_cons, Bool.or_eq_false_iff] at h
    simp [wfL_cons, ihn h.1, ihr h.2]

theorem wf_no_nested :
    (∀ n, wfN n = true → noNestedN n = true) ∧
    (∀ l, wfL l = true → noNestedL l = true) := by
  refine nodeInd _ _ ?_ ?_ ?_ ?_
  · intro s _; rfl
  · intro tg c mk cs ih h
    rw [wfN_elem, Bool.and_eq_true] at h
    simp only [noNestedN, Bool.and_eq_true]
    refine ⟨?_, ih h.2⟩
    by_cases hm : c == markerClass
    · rw [if_pos hm] at h ⊢
      simp [textOnly_no_marker cs h.1]
    · rw [if_neg hm]
  · intro _; rfl
  · intro n r ihn ihr h
    rw [wfL_cons, Bool.and_eq_true] at h
    simp only [noNestedL, Bool.and_eq_true]
    exact ⟨ihn h.1, ihr h.2⟩

theorem wfN_mkMarker (o : MarkOptions) (mid : Str) : wfN (mkMarker o mid) = true := by
  cases mid with
  | nil => simp [mkMarker, wfN_elem, wfL_nil, textOnly]
  | cons c cs => simp [mkMarker, single, wfN_elem, wfL_cons, wfL_nil, wfN_text, textOnly]

theorem wf_processText (a b : Nat) (o : MarkOptions) :
    ∀ (fuel : Nat) (pm : Bool) (st : HLSt) (t : Str),
      wfL (processText a b o fuel pm st t).1 = true := by
  intro fuel
  induction fuel with
  | zero =>
    intro pm st t
    simp [processText, processTextSkip, single, wfL_cons, wfL_nil, wfN_text]
  | succ fuel ih =>
    intro pm st t
    simp only [processText]
    split
    · split
      · simp [processTextSkip, single, wfL_cons, wfL_nil, wfN_text]
      · split
        · simp [wrapNodes, single, wfL_cons, wfL_nil, wfN_text, wfN_mkMarker]
        · split
          · simp [wrapNodes, single, wfL_cons, wfL_nil, wfN_text, wfN_mkMarker]
          · simp [wfL_cons, wfN_text, wfN_mkMarker, ih]
    · simp [processTextSkip, single, wfL_cons, wfL_nil, wfN_text]

theorem wf_process (a b : Nat) (o : MarkOptions) (fuel : Nat) :
    (∀ n, ∀ pm st, wfN n = true → wfL (processNode a b o fuel pm st n).1 = true) ∧
    (∀ l, ∀ pm st, wfL l = true → wfL (processForest a b o fuel pm st l).1 = true) := by
  refine nodeInd _ _ ?_ ?_ ?_ ?_
  · intro s pm st _
    exact wf_processText a b o fuel pm st s
  · intro tg c mk cs ih pm st h
    rw [wfN_elem, Bool.and_eq_true] at h
    simp only [processNode]
    by_cases hm : c == markerClass
    · rw [if_pos hm] at h
      rw [hm]
      simp [single, wfL_cons, wfL_nil, wfN_elem, hm,
        textOnly_processForest a b o fuel cs h.1 st, h.1, h.2]
    · rw [if_neg hm] at h
      have h2 := ih (c == markerClass) st h.2
      have hm2 : (c == markerClass) = false := by simpa using hm
      rw [hm2] at h2
      simp [single, wfL_cons, wfL_nil, wfN_elem, hm2, h2]
  · intro pm st _
    rfl
  · intro n r ihn ihr pm st h
    rw [wfL_cons, Bool.and_eq_true] at h
    simp only [processForest]
    split
    · simp [wfL_cons, h.1, h.2]
    · rw [wfL_append, Bool.and_eq_true]
      exact ⟨ihn pm st h.1, ihr pm _ h.2⟩

theorem clearListN_textOnly : ∀ l, textOnly l = true → clearListN l = (l, false) :=
  fun l =>
  match l with
  | .nil => fun _ => rfl
  | .cons (.text t) r => fun h => by
    simp only [clearListN, clearOneN, clearListN_textOnly r (by simpa [textOnly] using h),
      single, cons_append, nil_append, Bool.or_self]
  | .cons (.elem tg c mk cs) r => fun h => by simp [textOnly] at h

theorem hasMarker_consText (s : Str) (l : NodeList) :
    hasMarkerL (consText s l) = hasMarkerL l := by
  cases l with
  | nil =>
    cases s with
    | nil => rfl
    | cons c cs => simp [consText, hasMarkerL_cons, hasMarkerL, hasMarkerN]
  | cons n rs =>
    cases n with
    | text u =>
      simp only [consText]
      split
      · simp [hasMarkerL_cons, hasMarkerN]
      · simp [hasMarkerL_cons, hasMarkerN]
    | elem tg c mk cs =>
      cases s with
      | nil => rfl
      | cons c2 cs2 => simp [consText, hasMarkerL_cons, hasMarkerN]

theorem hasMarker_mergeAdj : ∀ l, hasMarkerL (mergeAdj l) = hasMarkerL l :=
  fun l =>
  match l with
  | .nil => rfl
  | .cons (.text s) r => by
    simp only [mergeAdj, hasMarker_consText, hasMarkerL_cons, hasMarkerN,
      hasMarker_mergeAdj r, Bool.false_or]
  | .cons (.elem tg c mk cs) r => by
    simp only [mergeAdj, hasMarkerL_cons, hasMarker_mergeAdj r]

theorem hasMarker_deepNorm :
    (∀ n, hasMarkerN (deepNormN n) = hasMarkerN n) ∧
    (∀ l, hasMarkerL (deepNormL l) = hasMarkerL l) := by
  refine nodeInd _ _ ?_ ?_ ?_ ?_
  · intro s; rfl
  · intro tg c mk cs ih
    simp only [deepNormN, hasMarkerN, hasMarker_mergeAdj, ih]
  · rfl
  · intro n r ihn ihr
    simp only [deepNormL, hasMarkerL_cons, ihn, ihr]

theorem hasMarker_normalizeL (l : NodeList) : hasMarkerL (normalizeL l) = hasMarkerL l := by
  simp only [normalizeL, hasMarker_mergeAdj, hasMarker_deepNorm.2 l]

theorem clear_no_marker :
    (∀ n, hasMarkerL (clearOneN n).1 = false) ∧
    (∀ l, hasMarkerL (clearListN l).1 = false) := by
  refine nodeInd _ _ ?_ ?_ ?_ ?_
  · intro s
    simp [single, hasMarkerL_cons, hasMarkerL, hasMarkerN]
  · intro tg c mk cs ih
    simp only [clearOneN]
    have hcs : ∀ dirty : Bool,
        hasMarkerL (if dirty then normalizeL (clearListN cs).1 else (clearListN cs).1) = false := by
      intro dirty
      cases dirty with
      | true => simpa [hasMarker_normalizeL] using ih
      | false => simpa using ih
    by_cases hm : c == markerClass
    · simp [hm, hcs]
    · simp [hm, single, hasMarkerL_cons, hasMarkerL, hasMarkerN, hcs]
  · rfl
  · intro n r ihn ihr
    simp only [clearListN, hasMarkerL_append, ihn, ihr, Bool.or_self]

theorem wfN_clearContainer (c : Node) (h : wfN c = true) :
    wfN (clearContainer c) = true := by
  cases c with
  | text s => rfl
  | elem tg cl mk cs =>
    by_cases hm : cl == markerClass
    · rw [wfN_elem, if_pos hm, Bool.and_eq_true] at h
      simp only [clearContainer, clearListN_textOnly cs h.1]
      simp [wfN_elem, hm, h.1, h.2]
    · rw [wfN_elem, if_neg hm, Bool.and_eq_true] at h
      have h1 : hasMarkerL (clearListN cs).1 = false := clear_no_marker.2 cs
      simp only [clearContainer, wfN_elem]
      by_cases hd : (clearListN cs).2
      · have h2 : hasMarkerL (normalizeL (clearListN cs).1) = false := by
          rw [hasMarker_normalizeL]; exact h1
        simp [hd, hm, wf_of_no_marker.2 _ h2]
      · simp [hd, hm, wf_of_no_marker.2 _ h1]

theorem wfN_highlightRange (fuel a b : Nat) (o : MarkOptions) (c : Node)
    (mks : List Node) (h : wfN c = true) :
    wfN (highlightRange fuel a b o c mks).1 = true := by
  cases c with
  | text s => rfl
  | elem tg cl mk cs =>
    simp only [highlightRange]
    by_cases hm : cl == markerClass
    · rw [wfN_elem, if_pos hm, Bool.and_eq_true] at h
      rw [hm]
      simp [wfN_elem, hm, textOnly_processForest a b o fuel cs h.1 _, h.1, h.2]
    · rw [wfN_elem, if_neg hm, Bool.and_eq_true] at h
      have hm2 : (cl == markerClass) = false := by simpa using hm
      have h2 := (wf_process a b o fuel).2 cs (cl == markerClass) ⟨0, false, mks⟩ h.2
      rw [hm2] at h2
      simp [wfN_elem, hm2, h2]

theorem wf_hlStep_foldl (fuel : Nat) (cfg : HLConfig) (base : Nat) (sel : List Token) :
    ∀ acc : Node × HState, wfN acc.1 = true →
      wfN ((sel.foldl (hlStep fuel cfg base) acc)).1 = true := by
  induction sel with
  | nil => intro acc h; exact h
  | cons tk sel ih =>
    intro acc h
    rw [List.foldl_cons]
    exact ih _ (wfN_highlightRange fuel (base + tk.start) (base + tk.«end»)
      (mkOptions cfg tk) acc.1 acc.2.currentHighlights h)

theorem wfN_applyHighlights (fuel : Nat) (cfg : HLConfig) (st : HState) (c : Node)
    (an : Option Analysis) (s w : Str) (h : wfN c = true) :
    wfN (applyHighlights fuel cfg st c an s w).container = true := by
  unfold applyHighlights
  cases an with
  | none => exact h
  | some a =>
    cases ht : a.tokens with
    | none => simp only [ht]; exact h
    | some toks =>
      simp only [ht]
      by_cases he2 : toks.isEmpty
      · simp only [he2, if_true]
        exact h
      · simp only [he2, Bool.false_eq_true, if_false]
        cases hio : indexOfSub (flatN (clearContainer c)) s with
        | none =>
          simp only [hio]
          exact wfN_clearContainer c h
        | some base =>
          simp only [hio]
          exact wf_hlStep_foldl fuel cfg base _ _ (wfN_clearContainer c h)

theorem wfN_runOp (fuel : Nat) (cfg : HLConfig) (s : HState × Node) (op : EngineOp)
    (h : wfN s.2 = true) : wfN (runOp fuel cfg s op).2 = true := by
  cases op with
  | highlight an ot tw => exact wfN_applyHighlights fuel cfg s.1 s.2 an ot tw h
  | clear => exact wfN_clearContainer s.2 h
  | clearAll => exact wfN_clearContainer s.2 h

theorem wfN_runOps (fuel : Nat) (cfg : HLConfig) (ops : List EngineOp) :
    ∀ s : HState × Node, wfN s.2 = true → wfN (runOps fuel cfg s ops).2 = true := by
  induction ops with
  | nil => intro s h; exact h
  | cons op ops ih =>
    intro s h
    simp only [runOps, List.foldl_cons]
    exact ih _ (wfN_runOp fuel cfg s op h)

/-- C8: a text node whose parent is an existing marker element is skipped by
`highlightTextNode` — the node is left unchanged and no marker is created —
and consequently, starting from a marker-free container, no sequence of
engine operations (highlight requests, container clears, whole-document
clears) ever leaves a marker element nested inside another marker element. -/
theorem C8_no_nested_markers :
    (∀ (a b : Nat) (o : MarkOptions) (fuel : Nat) (st : HLSt) (t : Str),
      (processText a b o fuel true st t).1 = single (.text t) ∧
      (processText a b o fuel true st t).2.markers = st.markers) ∧
    (∀ (fuel : Nat) (cfg : HLConfig) (st : HState) (c : Node) (ops : List EngineOp),
      hasMarkerN c = false →
      noNestedN (runOps fuel cfg (st, c) ops).2 = true) := by
  constructor
  · intro a b o fuel st t
    rw [processText_pm_true]
    exact ⟨rfl, rfl⟩
  · intro fuel cfg st c ops h
    exact wf_no_nested.1 _ (wfN_runOps fuel cfg ops (st, c) (wf_of_no_marker.1 c h))

/-- C8 witness: a highlight request followed by a clear on the marker-free demo
container leaves no nested markers. -/
theorem C8_no_nested_markers_witness :
    noNestedN (runOps 9 cfg0 (⟨[], none⟩, demoContainer)
      [.highlight (some ⟨some [c1Token]⟩) "abcdefghijkl".data "cdefgh".data,
        .clear]).2 = true :=
  C8_no_nested_markers.2 9 cfg0 ⟨[], none⟩ demoContainer
    [.highlight (some ⟨some [c1Token]⟩) "abcdefghijkl".data "cdefgh".data, .clear]
    (by decide)

/-- C1: evaluation of the coverage invariant at a failing input. The demo
container's flattened text `abcdefghijkl` is split over two text nodes and the
single selected token covers `[2, 8)` at base offset 0. The walker wraps
`[2, 6)` inside the first node, then — being live — re-visits the marker text
it just inserted, overcounts the running offset to 10 ≥ 8 and breaks before
the second text node; characters 6 and 7 are never wrapped. The union of
ranges wrapped by the created markers, read back from the DOM, is `[2, 6)`
where the claim requires the selected token's full `[2, 8)`. -/
theorem C1_coverage_bug_eval :
    covN false c1Result =
      [false, false, true, true, true, true, false, false, false, false, false, false] ∧
    (List.range 12).map (fun i => decide (c1Token.start ≤ i) && decide (i < c1Token.«end»)) =
      [false, false, true, true, true, true, true, true, false, false, false, false] ∧
    covN false c1Result ≠
      (List.range 12).map (fun i => decide (c1Token.start ≤ i) && decide (i < c1Token.«end»)) :=
  ⟨by decide, by decide, by decide⟩
